import Mathlib

/-!
Shallow embedding of the signing-manager core (crates/signer/src/manager.rs)
of the commit repository, together with proofs of the specification claims.

The manager code under src/ is the authority for registry and manager
behaviour.  The cryptographic primitives, the generic key wrappers and the
delegation types live in the cb_common crate, which is not part of src/;
those are modelled from the specification, with symbolic (Dolev-Yao style)
signatures: a signature is a canonical byte encoding of the signing public
key together with the signing root, and verification checks that encoding.
-/

set_option autoImplicit false

/-- Raw byte strings; a byte is modelled as a natural number. -/
abbrev Bytes := List Nat

/-- Modelled from the spec: a chain identifier; it determines the
domain-separation value mixed into every signing root. -/
structure Chain where
  id : Nat
deriving DecidableEq

/-- Modelled from the spec: the domain-separation value of a chain for the
message types signed by this core. -/
def Chain.builderDomain (c : Chain) : Bytes :=
  [c.id]

/-- Modelled from the spec: an opaque string identifying a client module. -/
abbrev ModuleId := String

/-- Modelled from the spec: a public key of the pairing-based (BLS) scheme,
identified with its raw byte representation. -/
structure BlsPubkey where
  bytes : Bytes
deriving DecidableEq

/-- Modelled from the spec: a public key of the elliptic-curve (ECDSA)
scheme, identified with its raw byte representation. -/
structure EcdsaPubkey where
  bytes : Bytes
deriving DecidableEq

/-- Modelled from the spec: a secret key of the BLS scheme. -/
structure BlsSecretKey where
  material : Bytes
deriving DecidableEq

/-- Modelled from the spec: a secret key of the ECDSA scheme. -/
structure EcdsaSecretKey where
  material : Bytes
deriving DecidableEq

/-- Modelled from the spec: derivation of the BLS public key from the
secret key material. -/
def blsPubkeyOf (sk : BlsSecretKey) : BlsPubkey :=
  ⟨sk.material⟩

/-- Modelled from the spec: derivation of the ECDSA public key from the
secret key material. -/
def ecdsaPubkeyOf (sk : EcdsaSecretKey) : EcdsaPubkey :=
  ⟨sk.material⟩

/-- Modelled from the spec: the tagged union GenericPubkey over the two
scheme variants. -/
inductive GenericPubkey where
  | bls (pk : BlsPubkey)
  | ecdsa (pk : EcdsaPubkey)
deriving DecidableEq

/-- Modelled from the spec: the raw-byte representation of a generic
pubkey, used for all cross-scheme comparisons and lookups (untagged). -/
def GenericPubkey.rawBytes : GenericPubkey → Bytes
  | .bls pk => pk.bytes
  | .ecdsa pk => pk.bytes

/-- Modelled from the spec: a tagged canonical byte encoding of a generic
pubkey, used by the merkleization model. -/
def GenericPubkey.taggedBytes : GenericPubkey → Bytes
  | .bls pk => 0 :: pk.bytes
  | .ecdsa pk => 1 :: pk.bytes

/-- Modelled from the spec: a BLS signature, as raw bytes. -/
abbrev BlsSignature := Bytes

/-- Modelled from the spec: the signing-root derivation, mixing the
object root with the domain value; injective pairing of the two. -/
def computeSigningRoot (objectRoot : Bytes) (domain : Bytes) : Bytes :=
  objectRoot ++ domain

/-- Modelled from the spec: the BLS signing primitive, symbolic model.
The signature is the canonical encoding of the signing public key together
with the signing root derived from the chain domain and the object root. -/
def blsSign (sk : BlsSecretKey) (chain : Chain) (objectRoot : Bytes) : BlsSignature :=
  (blsPubkeyOf sk).bytes ++ computeSigningRoot objectRoot chain.builderDomain

/-- Modelled from the spec: BLS verification, symbolic model; succeeds
exactly on the signature the matching secret key produces for this chain
and object root. -/
def blsVerify (pk : BlsPubkey) (chain : Chain) (objectRoot : Bytes) (sig : BlsSignature) : Bool :=
  decide (sig = pk.bytes ++ computeSigningRoot objectRoot chain.builderDomain)

/-- Modelled from the spec: the ECDSA signing primitive, symbolic model,
returning raw signature bytes. -/
def ecdsaSign (sk : EcdsaSecretKey) (chain : Chain) (objectRoot : Bytes) : Bytes :=
  (ecdsaPubkeyOf sk).bytes ++ computeSigningRoot objectRoot chain.builderDomain

/-- Modelled from the spec: the unsigned delegation statement binding a
proxy pubkey to a consensus (delegator) pubkey. -/
structure ProxyDelegation where
  delegator : BlsPubkey
  proxy : GenericPubkey
deriving DecidableEq

/-- Modelled from the spec: the merkleization primitive producing the
object root of a ProxyDelegation; modelled as a canonical injective byte
encoding of the message, used identically at signing and validation time. -/
def ProxyDelegation.treeHashRoot (m : ProxyDelegation) : Bytes :=
  m.delegator.bytes ++ m.proxy.taggedBytes

/-- Modelled from the spec: a delegation message together with the
consensus-key signature over it. -/
structure SignedProxyDelegation where
  signature : BlsSignature
  message : ProxyDelegation
deriving DecidableEq

/-- Modelled from the spec: standalone validation of a signed delegation,
recomputing the signing root from the chain domain and the message root and
verifying the signature against the delegator pubkey. -/
def SignedProxyDelegation.validate (d : SignedProxyDelegation) (chain : Chain) : Bool :=
  blsVerify d.message.delegator chain d.message.treeHashRoot d.signature

/-- Modelled from the spec: a signer owning one BLS keypair (the consensus
signer type, and the keypair backing a BLS proxy signer). -/
structure Signer where
  secret : BlsSecretKey
deriving DecidableEq

/-- Modelled from the spec: the public key of a BLS signer. -/
def Signer.pubkey (s : Signer) : BlsPubkey :=
  blsPubkeyOf s.secret

/-- Modelled from the spec: signing with a BLS signer over a chain domain
and an object root. -/
def Signer.sign (s : Signer) (chain : Chain) (objectRoot : Bytes) : BlsSignature :=
  blsSign s.secret chain objectRoot

/-- Modelled from the spec: a signer owning one ECDSA keypair. -/
structure EcdsaSigner where
  secret : EcdsaSecretKey
deriving DecidableEq

/-- Modelled from the spec: the public key of an ECDSA signer. -/
def EcdsaSigner.pubkey (s : EcdsaSigner) : EcdsaPubkey :=
  ecdsaPubkeyOf s.secret

/-- Modelled from the spec: a BLS proxy keypair paired with the delegation
certificate that authorized it. -/
structure BlsProxySigner where
  signer : Signer
  delegation : SignedProxyDelegation
deriving DecidableEq

/-- The public key of a BLS proxy signer (the pubkey of its keypair). -/
def BlsProxySigner.pubkey (p : BlsProxySigner) : BlsPubkey :=
  p.signer.pubkey

/-- Modelled from the spec: an ECDSA proxy keypair paired with the
delegation certificate that authorized it. -/
structure EcdsaProxySigner where
  signer : EcdsaSigner
  delegation : SignedProxyDelegation
deriving DecidableEq

/-- The public key of an ECDSA proxy signer (the pubkey of its keypair). -/
def EcdsaProxySigner.pubkey (p : EcdsaProxySigner) : EcdsaPubkey :=
  p.signer.pubkey

/-- Modelled from the spec: the tagged union GenericProxySigner over the
two scheme variants. -/
inductive GenericProxySigner where
  | bls (p : BlsProxySigner)
  | ecdsa (p : EcdsaProxySigner)
deriving DecidableEq

/-- The generic public key of a generic proxy signer. -/
def GenericProxySigner.pubkey : GenericProxySigner → GenericPubkey
  | .bls p => .bls p.pubkey
  | .ecdsa p => .ecdsa p.pubkey

/-- Modelled from the spec: dispatching sign over the scheme variants,
returning raw signature bytes. -/
def GenericProxySigner.sign (p : GenericProxySigner) (chain : Chain) (objectRoot : Bytes) : Bytes :=
  match p with
  | .bls q => blsSign q.signer.secret chain objectRoot
  | .ecdsa q => ecdsaSign q.signer.secret chain objectRoot

/-- The stored delegation certificate of a generic proxy signer. -/
def GenericProxySigner.delegation : GenericProxySigner → SignedProxyDelegation
  | .bls q => q.delegation
  | .ecdsa q => q.delegation

/-- Modelled from the spec: the error type of the signer module; each
error carries the offending raw public-key bytes. -/
inductive SignerModuleError where
  | unknownConsensusSigner (bytes : Bytes)
  | unknownProxySigner (bytes : Bytes)
deriving DecidableEq

/-- Result of a computation that may panic (Rust expect); the panicked
constructor marks the panic path. -/
inductive PanicOr (α : Type) where
  | panicked
  | returns (a : α)
deriving DecidableEq

/-- HashMaps of the source are embedded as association lists keyed by
decidable equality; alGet is lookup. -/
def alGet {K V : Type} [DecidableEq K] (m : List (K × V)) (k : K) : Option V :=
  match m with
  | [] => none
  | (k1, v) :: rest => if k1 = k then some v else alGet rest k

/-- Insertion into an association list: replaces the value in place when
the key is present, appends otherwise (HashMap insert semantics). -/
def alInsert {K V : Type} [DecidableEq K] (m : List (K × V)) (k : K) (v : V) : List (K × V) :=
  match m with
  | [] => [(k, v)]
  | (k1, v1) :: rest => if k1 = k then (k, v) :: rest else (k1, v1) :: alInsert rest k v

/-- Append one element to the list stored at a key, inserting a fresh
singleton list when the key is absent (entry or_default push semantics). -/
def alPush {K V : Type} [DecidableEq K] (m : List (K × List V)) (k : K) (x : V) : List (K × List V) :=
  match m with
  | [] => [(k, [x])]
  | (k1, l) :: rest => if k1 = k then (k1, l ++ [x]) :: rest else (k1, l) :: alPush rest k x

/-- The proxy registry: one mapping per scheme from public key to proxy
signer (manager.rs, struct ProxySigners). -/
structure ProxySigners where
  bls_signers : List (BlsPubkey × BlsProxySigner)
  ecdsa_signers : List (EcdsaPubkey × EcdsaProxySigner)
deriving DecidableEq

/-- The empty registry (derive Default). -/
def ProxySigners.empty : ProxySigners :=
  ⟨[], []⟩

/-- ProxySigners.get: dispatches on the tag and looks up in the matching
scheme map (manager.rs lines 23 to 34). -/
def ProxySigners.get (ps : ProxySigners) (key : GenericPubkey) : Option GenericProxySigner :=
  match key with
  | .bls pk => (alGet ps.bls_signers pk).map GenericProxySigner.bls
  | .ecdsa pk => (alGet ps.ecdsa_signers pk).map GenericProxySigner.ecdsa

/-- ProxySigners.add: inserts keyed by the own public key of the signer
into the matching scheme map (manager.rs lines 36 to 45). -/
def ProxySigners.add (ps : ProxySigners) (proxy : GenericProxySigner) : ProxySigners :=
  match proxy with
  | .bls p => { ps with bls_signers := alInsert ps.bls_signers p.pubkey p }
  | .ecdsa p => { ps with ecdsa_signers := alInsert ps.ecdsa_signers p.pubkey p }

/-- The inner generic helper of find_pubkey (manager.rs lines 48 to 57):
finds the first key whose raw bytes equal the query and tags it. -/
def find_typed {α : Type} (keys : List α) (raw : α → Bytes) (tag : α → GenericPubkey)
    (pubkey : Bytes) : Option GenericPubkey :=
  (keys.find? fun x => decide (raw x = pubkey)).map tag

/-- ProxySigners.find_pubkey: scans the keys of the BLS map first, falling
back to the ECDSA map (manager.rs lines 47 to 61). -/
def ProxySigners.find_pubkey (ps : ProxySigners) (pubkey : Bytes) : Option GenericPubkey :=
  match find_typed (ps.bls_signers.map Prod.fst) BlsPubkey.bytes GenericPubkey.bls pubkey with
  | some g => some g
  | none => find_typed (ps.ecdsa_signers.map Prod.fst) EcdsaPubkey.bytes GenericPubkey.ecdsa pubkey

/-- A random fresh keypair of the chosen scheme, supplied explicitly: the
scheme type parameter of create_proxy together with the outcome of the
random generation (Signer new_random). -/
inductive FreshKey where
  | bls (sk : BlsSecretKey)
  | ecdsa (sk : EcdsaSecretKey)
deriving DecidableEq

/-- The generic pubkey of the freshly generated keypair. -/
def FreshKey.pubkey : FreshKey → GenericPubkey
  | .bls sk => .bls (blsPubkeyOf sk)
  | .ecdsa sk => .ecdsa (ecdsaPubkeyOf sk)

/-- Wrapping the fresh keypair and its certificate into a generic proxy
signer (ProxySigner new and Into). -/
def FreshKey.mkProxySigner : FreshKey → SignedProxyDelegation → GenericProxySigner
  | .bls sk, d => .bls ⟨⟨sk⟩, d⟩
  | .ecdsa sk, d => .ecdsa ⟨⟨sk⟩, d⟩

/-- The signing manager (manager.rs lines 83 to 92). -/
structure SigningManager where
  chain : Chain
  consensus_signers : List (BlsPubkey × Signer)
  proxy_signers : ProxySigners
  proxy_pubkeys : List (ModuleId × List GenericPubkey)
deriving DecidableEq

/-- SigningManager.new (manager.rs lines 95 to 102). -/
def SigningManager.new (chain : Chain) : SigningManager :=
  ⟨chain, [], ProxySigners.empty, []⟩

/-- add_consensus_signer: registers a signer keyed by its own pubkey
(manager.rs lines 104 to 106). -/
def SigningManager.add_consensus_signer (m : SigningManager) (signer : Signer) : SigningManager :=
  { m with consensus_signers := alInsert m.consensus_signers signer.pubkey signer }

/-- add_proxy_signer: delegates to the registry add (manager.rs lines 108
to 110). -/
def SigningManager.add_proxy_signer (m : SigningManager) (proxy : GenericProxySigner) : SigningManager :=
  { m with proxy_signers := m.proxy_signers.add proxy }

/-- sign_consensus (manager.rs lines 138 to 150), in state-passing form:
the method borrows the manager and performs no mutation, so each branch
returns the state it was entered with. -/
def SigningManager.sign_consensus (m : SigningManager) (pubkey : BlsPubkey)
    (objectRoot : Bytes) : Except SignerModuleError BlsSignature × SigningManager :=
  match alGet m.consensus_signers pubkey with
  | none => (.error (.unknownConsensusSigner pubkey.bytes), m)
  | some signer => (.ok (signer.sign m.chain objectRoot), m)

/-- create_proxy (manager.rs lines 112 to 134), in state-passing form with
the freshly generated keypair supplied explicitly: builds and signs the
delegation with the consensus key of the delegator, then stores the proxy
signer and appends the proxy pubkey to the module index. -/
def SigningManager.create_proxy (m : SigningManager) (fresh : FreshKey) (module_id : ModuleId)
    (delegator : BlsPubkey) : Except SignerModuleError SignedProxyDelegation × SigningManager :=
  let proxy_pubkey := fresh.pubkey
  let message : ProxyDelegation := ⟨delegator, proxy_pubkey⟩
  match m.sign_consensus delegator message.treeHashRoot with
  | (.error e, m1) => (.error e, m1)
  | (.ok signature, m1) =>
    let signed_delegation : SignedProxyDelegation := ⟨signature, message⟩
    let proxy_signer := fresh.mkProxySigner signed_delegation
    let m2 := m1.add_proxy_signer proxy_signer
    let m3 := { m2 with proxy_pubkeys := alPush m2.proxy_pubkeys module_id proxy_pubkey }
    (.ok signed_delegation, m3)

/-- find_proxy (manager.rs lines 152 to 158): looks up the raw bytes in
the registry and resolves the found pubkey; the expect on the resolution
is modelled by the panicked constructor. -/
def SigningManager.find_proxy (m : SigningManager) (pubkey : Bytes) :
    PanicOr (Option GenericProxySigner) :=
  match m.proxy_signers.find_pubkey pubkey with
  | none => .returns none
  | some generic_pubkey =>
    match m.proxy_signers.get generic_pubkey with
    | none => .panicked
    | some proxy_signer => .returns (some proxy_signer)

/-- sign_proxy (manager.rs lines 160 to 172), in state-passing form: signs
with the found proxy signer under the chain of the manager; performs no
mutation, so each branch returns the state it was entered with. -/
def SigningManager.sign_proxy (m : SigningManager) (pubkey : Bytes) (objectRoot : Bytes) :
    PanicOr (Except SignerModuleError Bytes) × SigningManager :=
  match m.find_proxy pubkey with
  | .panicked => (.panicked, m)
  | .returns none => (.returns (.error (.unknownProxySigner pubkey)), m)
  | .returns (some proxy) => (.returns (.ok (proxy.sign m.chain objectRoot)), m)

/-- consensus_pubkeys (manager.rs lines 174 to 176). -/
def SigningManager.consensus_pubkeys (m : SigningManager) : List BlsPubkey :=
  m.consensus_signers.map Prod.fst

/-- has_consensus (manager.rs lines 182 to 184). -/
def SigningManager.has_consensus (m : SigningManager) (pubkey : BlsPubkey) : Bool :=
  (alGet m.consensus_signers pubkey).isSome

/-- has_proxy (manager.rs lines 186 to 188). -/
def SigningManager.has_proxy (m : SigningManager) (pubkey : Bytes) : Bool :=
  (m.proxy_signers.find_pubkey pubkey).isSome

/-- get_delegation (manager.rs lines 190 to 199). -/
def SigningManager.get_delegation (m : SigningManager) (pubkey : Bytes) :
    PanicOr (Except SignerModuleError SignedProxyDelegation) :=
  match m.find_proxy pubkey with
  | .panicked => .panicked
  | .returns none => .returns (.error (.unknownProxySigner pubkey))
  | .returns (some proxy) => .returns (.ok proxy.delegation)

/-- Well-formedness of the consensus map: every entry is keyed by the own
pubkey of the stored signer; add_consensus_signer only creates such
entries. -/
def ConsensusWF (m : SigningManager) : Prop :=
  ∀ q ∈ m.consensus_signers, Signer.pubkey q.2 = q.1

/-- The invariant of the module index: every pubkey appearing in any list
of proxy_pubkeys resolves in the proxy-signer registry. -/
def PkIndexInv (m : SigningManager) : Prop :=
  ∀ mid l, alGet m.proxy_pubkeys mid = some l → ∀ pk ∈ l, (m.proxy_signers.get pk).isSome

/-- The list of issued proxy pubkeys of a module (empty when the module
has no entry). -/
def pkList (m : SigningManager) (mid : ModuleId) : List GenericPubkey :=
  (alGet m.proxy_pubkeys mid).getD []

/-- Append-only evolution of the module index between two manager
states. -/
def IndexExtends (m m2 : SigningManager) : Prop :=
  ∀ mid, ∃ t, pkList m2 mid = pkList m mid ++ t

/-- Well-formedness of the proxy registry: every entry of each scheme map
is keyed by the own public key of the stored proxy signer, and the keys of
each scheme map contain no duplicate. -/
def RegistryWF (ps : ProxySigners) : Prop :=
  (∀ q ∈ ps.bls_signers, BlsProxySigner.pubkey q.2 = q.1) ∧
  (ps.bls_signers.map Prod.fst).Nodup ∧
  (∀ q ∈ ps.ecdsa_signers, EcdsaProxySigner.pubkey q.2 = q.1) ∧
  (ps.ecdsa_signers.map Prod.fst).Nodup

/-- Registry states reachable by a sequence of add operations from the
empty registry; add_proxy_signer and create_proxy mutate the registry only
through ProxySigners.add. -/
inductive RegReachable : ProxySigners → Prop where
  | init : RegReachable ProxySigners.empty
  | step (ps : ProxySigners) (p : GenericProxySigner) :
      RegReachable ps → RegReachable (ps.add p)

deriving instance DecidableEq for Except

/-- A sample chain, used by the concrete witnesses. -/
def chain0 : Chain :=
  ⟨0⟩

/-- A sample consensus signer, used by the concrete witnesses. -/
def consSigner0 : Signer :=
  ⟨⟨[1]⟩⟩

/-- The public key of the sample consensus signer. -/
def consKey0 : BlsPubkey :=
  ⟨[1]⟩

/-- A sample manager holding one consensus signer. -/
def mgr0 : SigningManager :=
  (SigningManager.new chain0).add_consensus_signer consSigner0

/-- A sample module id, used by the concrete witnesses. -/
def sampleModule : ModuleId :=
  "m1"

/-- A sample fresh BLS keypair, used by the concrete witnesses. -/
def freshBls0 : FreshKey :=
  .bls ⟨[2]⟩

/-- A sample signed delegation, used by the concrete witnesses. -/
def delegation0 : SignedProxyDelegation :=
  ⟨[0], ⟨⟨[1]⟩, .bls ⟨[2]⟩⟩⟩

/-- A sample generic proxy signer, used by the concrete witnesses. -/
def proxySigner0 : GenericProxySigner :=
  .bls ⟨⟨⟨[2]⟩⟩, delegation0⟩

/-- The signed delegation that the sample create_proxy call produces. -/
def delegation1 : SignedProxyDelegation :=
  ⟨[1, 1, 0, 2, 0], ⟨⟨[1]⟩, .bls ⟨[2]⟩⟩⟩

/-- The manager state after the sample create_proxy call. -/
def mgr1 : SigningManager :=
  (mgr0.create_proxy freshBls0 sampleModule consKey0).2

theorem alGet_insert_self {K V : Type} [DecidableEq K] (m : List (K × V)) (k : K) (v : V) :
    alGet (alInsert m k v) k = some v := by
  induction m with
  | nil => simp [alInsert, alGet]
  | cons hd tl ih =>
    obtain ⟨k1, v1⟩ := hd
    by_cases h : k1 = k
    · simp [alInsert, alGet, h]
    · simp [alInsert, alGet, h, ih]

theorem alGet_insert_ne {K V : Type} [DecidableEq K] (m : List (K × V)) (k k2 : K) (v : V)
    (h : k2 ≠ k) : alGet (alInsert m k v) k2 = alGet m k2 := by
  induction m with
  | nil => simp [alInsert, alGet, Ne.symm h]
  | cons hd tl ih =>
    obtain ⟨k1, v1⟩ := hd
    by_cases h1 : k1 = k
    · subst h1
      simp [alInsert, alGet, Ne.symm h]
    · simp only [alInsert, if_neg h1]
      by_cases h2 : k1 = k2
      · simp [alGet, h2]
      · simp [alGet, h2, ih]

theorem alGet_insert_isSome {K V : Type} [DecidableEq K] (m : List (K × V)) (k k2 : K) (v : V)
    (h : (alGet m k2).isSome) : (alGet (alInsert m k v) k2).isSome := by
  by_cases hk : k2 = k
  · subst hk
    rw [alGet_insert_self]
    rfl
  · rw [alGet_insert_ne m k k2 v hk]
    exact h

theorem alGet_mem {K V : Type} [DecidableEq K] (m : List (K × V)) (k : K) (v : V)
    (h : alGet m k = some v) : (k, v) ∈ m := by
  induction m with
  | nil => simp [alGet] at h
  | cons hd tl ih =>
    obtain ⟨k1, v1⟩ := hd
    by_cases h1 : k1 = k
    · subst h1
      have h2 : v1 = v := by simpa [alGet] using h
      subst h2
      exact List.mem_cons_self _ _
    · simp only [alGet, if_neg h1] at h
      exact List.mem_cons_of_mem _ (ih h)

theorem alGet_isSome_of_mem_key {K V : Type} [DecidableEq K] (m : List (K × V)) (k : K)
    (h : k ∈ m.map Prod.fst) : (alGet m k).isSome := by
  induction m with
  | nil => simp at h
  | cons hd tl ih =>
    obtain ⟨k1, v1⟩ := hd
    by_cases h1 : k1 = k
    · simp [alGet, h1]
    · simp only [List.map_cons, List.mem_cons] at h
      rcases h with h | h
      · exact absurd h.symm h1
      · simp only [alGet, if_neg h1]
        exact ih h

theorem alGet_none_iff {K V : Type} [DecidableEq K] (m : List (K × V)) (k : K) :
    alGet m k = none ↔ k ∉ m.map Prod.fst := by
  induction m with
  | nil => simp [alGet]
  | cons hd tl ih =>
    obtain ⟨k1, v1⟩ := hd
    by_cases h1 : k1 = k
    · subst h1
      simp [alGet]
    · simp only [alGet, if_neg h1, List.map_cons, List.mem_cons]
      rw [ih]
      push_neg
      constructor
      · intro hk
        exact ⟨fun h2 => h1 h2.symm, hk⟩
      · intro hk
        exact hk.2

theorem mem_insert_elim {K V : Type} [DecidableEq K] (m : List (K × V)) (k : K) (v : V)
    (q : K × V) (h : q ∈ alInsert m k v) : q = (k, v) ∨ q ∈ m := by
  induction m with
  | nil => simpa [alInsert] using h
  | cons hd tl ih =>
    obtain ⟨k1, v1⟩ := hd
    by_cases h1 : k1 = k
    · simp only [alInsert, if_pos h1, List.mem_cons] at h
      rcases h with h | h
      · exact Or.inl h
      · exact Or.inr (List.mem_cons_of_mem _ h)
    · simp only [alInsert, if_neg h1, List.mem_cons] at h
      rcases h with h | h
      · exact Or.inr (h ▸ List.mem_cons_self _ _)
      · rcases ih h with h2 | h2
        · exact Or.inl h2
        · exact Or.inr (List.mem_cons_of_mem _ h2)

theorem mem_key_insert_iff {K V : Type} [DecidableEq K] (m : List (K × V)) (k k2 : K) (v : V) :
    k2 ∈ (alInsert m k v).map Prod.fst ↔ k2 = k ∨ k2 ∈ m.map Prod.fst := by
  induction m with
  | nil => simp [alInsert]
  | cons hd tl ih =>
    obtain ⟨k1, v1⟩ := hd
    by_cases h1 : k1 = k
    · subst h1
      simp [alInsert]
    · simp only [alInsert, if_neg h1, List.map_cons, List.mem_cons, ih]
      tauto

theorem nodup_key_insert {K V : Type} [DecidableEq K] (m : List (K × V)) (k : K) (v : V)
    (h : (m.map Prod.fst).Nodup) : ((alInsert m k v).map Prod.fst).Nodup := by
  induction m with
  | nil => simp [alInsert]
  | cons hd tl ih =>
    obtain ⟨k1, v1⟩ := hd
    simp only [List.map_cons, List.nodup_cons] at h
    by_cases h1 : k1 = k
    · subst h1
      simpa [alInsert] using h
    · simp only [alInsert, if_neg h1, List.map_cons, List.nodup_cons]
      refine ⟨fun hmem => ?_, ih h.2⟩
      rcases (mem_key_insert_iff tl k k1 v).mp hmem with h2 | h2
      · exact h1 h2
      · exact h.1 h2

theorem alPush_get_self {K V : Type} [DecidableEq K] (m : List (K × List V)) (k : K) (x : V) :
    alGet (alPush m k x) k = some ((alGet m k).getD [] ++ [x]) := by
  induction m with
  | nil => simp [alPush, alGet]
  | cons hd tl ih =>
    obtain ⟨k1, l⟩ := hd
    by_cases h1 : k1 = k
    · simp [alPush, alGet, h1]
    · simp [alPush, alGet, h1, ih]

theorem alPush_get_ne {K V : Type} [DecidableEq K] (m : List (K × List V)) (k k2 : K) (x : V)
    (h : k2 ≠ k) : alGet (alPush m k x) k2 = alGet m k2 := by
  induction m with
  | nil => simp [alPush, alGet, Ne.symm h]
  | cons hd tl ih =>
    obtain ⟨k1, l⟩ := hd
    by_cases h1 : k1 = k
    · subst h1
      simp [alPush, alGet, Ne.symm h]
    · simp only [alPush, if_neg h1]
      by_cases h2 : k1 = k2
      · simp [alGet, h2]
      · simp [alGet, h2, ih]

theorem list_set_ne {α : Type} (l : List α) (i : Nat) (v : α) (hi : i < l.length)
    (hv : v ≠ l.get ⟨i, hi⟩) : l.set i v ≠ l := by
  intro h
  have h2 : (l.set i v)[i]? = l[i]? := by rw [h]
  rw [List.getElem?_set_self hi, List.getElem?_eq_getElem hi] at h2
  simp only [Option.some.injEq] at h2
  exact hv (by simpa [List.get_eq_getElem] using h2)

theorem find_typed_none_iff {α : Type} (keys : List α) (raw : α → Bytes) (tag : α → GenericPubkey)
    (pubkey : Bytes) :
    find_typed keys raw tag pubkey = none ↔ ∀ x ∈ keys, raw x ≠ pubkey := by
  simp [find_typed, List.find?_eq_none]

theorem find_typed_some_elim {α : Type} (keys : List α) (raw : α → Bytes) (tag : α → GenericPubkey)
    (pubkey : Bytes) (g : GenericPubkey) (h : find_typed keys raw tag pubkey = some g) :
    ∃ x, x ∈ keys ∧ raw x = pubkey ∧ g = tag x := by
  unfold find_typed at h
  cases hf : keys.find? fun x => decide (raw x = pubkey) with
  | none => rw [hf] at h; simp at h
  | some x =>
    rw [hf] at h
    simp only [Option.map_some', Option.some.injEq] at h
    refine ⟨x, List.mem_of_find?_eq_some hf, ?_, h.symm⟩
    have hx := List.find?_some hf
    simpa using hx

theorem find_typed_isSome {α : Type} (keys : List α) (raw : α → Bytes) (tag : α → GenericPubkey)
    (pubkey : Bytes) (x : α) (hx : x ∈ keys) (hraw : raw x = pubkey) :
    (find_typed keys raw tag pubkey).isSome := by
  unfold find_typed
  cases hf : keys.find? fun y => decide (raw y = pubkey) with
  | none =>
    rw [List.find?_eq_none] at hf
    exact absurd (by simpa using hraw) (by simpa using hf x hx)
  | some y => rfl

theorem find_pubkey_none_iff (ps : ProxySigners) (b : Bytes) :
    ps.find_pubkey b = none ↔
      (∀ pk ∈ ps.bls_signers.map Prod.fst, pk.bytes ≠ b) ∧
      (∀ pk ∈ ps.ecdsa_signers.map Prod.fst, pk.bytes ≠ b) := by
  unfold ProxySigners.find_pubkey
  cases hb : find_typed (ps.bls_signers.map Prod.fst) BlsPubkey.bytes GenericPubkey.bls b with
  | some g =>
    constructor
    · intro h; exact absurd h (by simp)
    · intro h
      obtain ⟨x, hx, hraw, -⟩ := find_typed_some_elim _ _ _ _ _ hb
      exact absurd hraw (h.1 x hx)
  | none =>
    rw [find_typed_none_iff] at hb
    rw [find_typed_none_iff]
    exact ⟨fun h => ⟨hb, h⟩, fun h => h.2⟩

theorem find_pubkey_bls_elim (ps : ProxySigners) (b : Bytes) (pk : BlsPubkey)
    (h : ps.find_pubkey b = some (.bls pk)) :
    pk ∈ ps.bls_signers.map Prod.fst ∧ pk.bytes = b := by
  unfold ProxySigners.find_pubkey at h
  cases hb : find_typed (ps.bls_signers.map Prod.fst) BlsPubkey.bytes GenericPubkey.bls b with
  | some g =>
    rw [hb] at h
    obtain ⟨x, hx, hraw, hg⟩ := find_typed_some_elim _ _ _ _ _ hb
    simp only [Option.some.injEq] at h
    rw [h] at hg
    cases hg
    exact ⟨hx, hraw⟩
  | none =>
    rw [hb] at h
    obtain ⟨x, hx, hraw, hg⟩ := find_typed_some_elim _ _ _ _ _ h
    cases hg

theorem find_pubkey_ecdsa_elim (ps : ProxySigners) (b : Bytes) (pk : EcdsaPubkey)
    (h : ps.find_pubkey b = some (.ecdsa pk)) :
    pk ∈ ps.ecdsa_signers.map Prod.fst ∧ pk.bytes = b ∧
      ∀ pk2 ∈ ps.bls_signers.map Prod.fst, pk2.bytes ≠ b := by
  unfold ProxySigners.find_pubkey at h
  cases hb : find_typed (ps.bls_signers.map Prod.fst) BlsPubkey.bytes GenericPubkey.bls b with
  | some g =>
    rw [hb] at h
    obtain ⟨x, hx, hraw, hg⟩ := find_typed_some_elim _ _ _ _ _ hb
    simp only [Option.some.injEq] at h
    rw [h] at hg
    cases hg
  | none =>
    rw [hb] at h
    obtain ⟨x, hx, hraw, hg⟩ := find_typed_some_elim _ _ _ _ _ h
    cases hg
    rw [find_typed_none_iff] at hb
    exact ⟨hx, hraw, hb⟩

theorem find_pubkey_of_bls_mem (ps : ProxySigners) (b : Bytes)
    (h : BlsPubkey.mk b ∈ ps.bls_signers.map Prod.fst) :
    ps.find_pubkey b = some (.bls ⟨b⟩) := by
  have hs := find_typed_isSome (ps.bls_signers.map Prod.fst) BlsPubkey.bytes GenericPubkey.bls b
    ⟨b⟩ h rfl
  unfold ProxySigners.find_pubkey
  cases hb : find_typed (ps.bls_signers.map Prod.fst) BlsPubkey.bytes GenericPubkey.bls b with
  | none => rw [hb] at hs; exact absurd hs (by simp)
  | some g =>
    obtain ⟨x, hx, hraw, hg⟩ := find_typed_some_elim _ _ _ _ _ hb
    have hxb : x = BlsPubkey.mk b := by cases x; simpa using hraw
    rw [hg, hxb]

theorem find_pubkey_of_ecdsa_mem (ps : ProxySigners) (b : Bytes)
    (hbls : ∀ pk ∈ ps.bls_signers.map Prod.fst, pk.bytes ≠ b)
    (h : EcdsaPubkey.mk b ∈ ps.ecdsa_signers.map Prod.fst) :
    ps.find_pubkey b = some (.ecdsa ⟨b⟩) := by
  have hs := find_typed_isSome (ps.ecdsa_signers.map Prod.fst) EcdsaPubkey.bytes
    GenericPubkey.ecdsa b ⟨b⟩ h rfl
  unfold ProxySigners.find_pubkey
  cases hb : find_typed (ps.bls_signers.map Prod.fst) BlsPubkey.bytes GenericPubkey.bls b with
  | some g =>
    obtain ⟨x, hx, hraw, -⟩ := find_typed_some_elim _ _ _ _ _ hb
    exact absurd hraw (hbls x hx)
  | none =>
    cases he : find_typed (ps.ecdsa_signers.map Prod.fst) EcdsaPubkey.bytes GenericPubkey.ecdsa b with
    | none => rw [he] at hs; exact absurd hs (by simp)
    | some g =>
      obtain ⟨x, hx, hraw, hg⟩ := find_typed_some_elim _ _ _ _ _ he
      have hxb : x = EcdsaPubkey.mk b := by cases x; simpa using hraw
      rw [hg, hxb]

theorem find_pubkey_rawBytes (ps : ProxySigners) (b : Bytes) (g : GenericPubkey)
    (h : ps.find_pubkey b = some g) : g.rawBytes = b := by
  cases g with
  | bls pk => exact (find_pubkey_bls_elim ps b pk h).2
  | ecdsa pk => exact (find_pubkey_ecdsa_elim ps b pk h).2.1

theorem find_pubkey_get_isSome (ps : ProxySigners) (b : Bytes) (g : GenericPubkey)
    (h : ps.find_pubkey b = some g) : (ps.get g).isSome := by
  cases g with
  | bls pk =>
    have hmem := (find_pubkey_bls_elim ps b pk h).1
    have hsome := alGet_isSome_of_mem_key ps.bls_signers pk hmem
    cases hg : alGet ps.bls_signers pk with
    | none => rw [hg] at hsome; exact absurd hsome (by simp)
    | some q => simp [ProxySigners.get, hg]
  | ecdsa pk =>
    have hmem := (find_pubkey_ecdsa_elim ps b pk h).1
    have hsome := alGet_isSome_of_mem_key ps.ecdsa_signers pk hmem
    cases hg : alGet ps.ecdsa_signers pk with
    | none => rw [hg] at hsome; exact absurd hsome (by simp)
    | some q => simp [ProxySigners.get, hg]

theorem consensusWF_new (c : Chain) : ConsensusWF (SigningManager.new c) := by
  intro q hq
  simp [SigningManager.new] at hq

theorem consensusWF_add (m : SigningManager) (s : Signer) (h : ConsensusWF m) :
    ConsensusWF (m.add_consensus_signer s) := by
  intro q hq
  rcases mem_insert_elim _ _ _ _ hq with h2 | h2
  · rw [h2]
  · exact h q h2

theorem sign_consensus_state (m : SigningManager) (k : BlsPubkey) (r : Bytes) :
    (m.sign_consensus k r).2 = m := by
  unfold SigningManager.sign_consensus
  cases alGet m.consensus_signers k <;> rfl

theorem sign_proxy_state (m : SigningManager) (b : Bytes) (r : Bytes) :
    (m.sign_proxy b r).2 = m := by
  unfold SigningManager.sign_proxy
  cases m.find_proxy b with
  | panicked => rfl
  | returns o => cases o <;> rfl

theorem create_proxy_err (m : SigningManager) (fresh : FreshKey) (mid : ModuleId)
    (k : BlsPubkey) (hs : alGet m.consensus_signers k = none) :
    m.create_proxy fresh mid k = (.error (.unknownConsensusSigner k.bytes), m) := by
  unfold SigningManager.create_proxy SigningManager.sign_consensus
  rw [hs]

theorem create_proxy_ok (m : SigningManager) (fresh : FreshKey) (mid : ModuleId)
    (k : BlsPubkey) (s : Signer) (hs : alGet m.consensus_signers k = some s) :
    m.create_proxy fresh mid k =
      (.ok ⟨s.sign m.chain (ProxyDelegation.mk k fresh.pubkey).treeHashRoot,
            ⟨k, fresh.pubkey⟩⟩,
       { chain := m.chain,
         consensus_signers := m.consensus_signers,
         proxy_signers := m.proxy_signers.add (fresh.mkProxySigner
           ⟨s.sign m.chain (ProxyDelegation.mk k fresh.pubkey).treeHashRoot,
            ⟨k, fresh.pubkey⟩⟩),
         proxy_pubkeys := alPush m.proxy_pubkeys mid fresh.pubkey }) := by
  unfold SigningManager.create_proxy SigningManager.sign_consensus
  rw [hs]
  rfl

theorem validate_of_signed (s : Signer) (k : BlsPubkey) (chain : Chain) (msg : ProxyDelegation)
    (hk : s.pubkey = k) (hd : msg.delegator = k) :
    SignedProxyDelegation.validate ⟨s.sign chain msg.treeHashRoot, msg⟩ chain = true := by
  simp [SignedProxyDelegation.validate, blsVerify, Signer.sign, blsSign, hd, ← hk, Signer.pubkey]

theorem indexExtends_refl (m : SigningManager) : IndexExtends m m :=
  fun _ => ⟨[], by simp⟩

theorem get_add_isSome (ps : ProxySigners) (p : GenericProxySigner) (pk : GenericPubkey)
    (h : (ps.get pk).isSome) : ((ps.add p).get pk).isSome := by
  cases p with
  | bls q =>
    cases pk with
    | bls pk2 =>
      simp only [ProxySigners.get, ProxySigners.add, Option.isSome_map'] at h ⊢
      exact alGet_insert_isSome _ _ _ _ h
    | ecdsa pk2 =>
      simpa only [ProxySigners.get, ProxySigners.add] using h
  | ecdsa q =>
    cases pk with
    | bls pk2 =>
      simpa only [ProxySigners.get, ProxySigners.add] using h
    | ecdsa pk2 =>
      simp only [ProxySigners.get, ProxySigners.add, Option.isSome_map'] at h ⊢
      exact alGet_insert_isSome _ _ _ _ h

theorem get_add_self (ps : ProxySigners) (p : GenericProxySigner) :
    (ps.add p).get p.pubkey = some p := by
  cases p with
  | bls q =>
    simp [ProxySigners.get, ProxySigners.add, GenericProxySigner.pubkey, alGet_insert_self]
  | ecdsa q =>
    simp [ProxySigners.get, ProxySigners.add, GenericProxySigner.pubkey, alGet_insert_self]

theorem mkProxySigner_pubkey (fresh : FreshKey) (d : SignedProxyDelegation) :
    (fresh.mkProxySigner d).pubkey = fresh.pubkey := by
  cases fresh <;>
    rfl

theorem find_pubkey_isSome_iff (ps : ProxySigners) (b : Bytes) :
    (ps.find_pubkey b).isSome ↔
      (∃ pk ∈ ps.bls_signers.map Prod.fst, pk.bytes = b) ∨
      (∃ pk ∈ ps.ecdsa_signers.map Prod.fst, pk.bytes = b) := by
  rw [Option.isSome_iff_ne_none, Ne, find_pubkey_none_iff, not_and_or]
  simp only [not_forall, not_not, exists_prop]

theorem find_proxy_cases (m : SigningManager) (b : Bytes) :
    (m.find_proxy b = .returns none ∧ m.proxy_signers.find_pubkey b = none) ∨
    (∃ g q, m.proxy_signers.find_pubkey b = some g ∧ m.proxy_signers.get g = some q ∧
      m.find_proxy b = .returns (some q)) := by
  unfold SigningManager.find_proxy
  cases h : m.proxy_signers.find_pubkey b with
  | none => exact Or.inl ⟨rfl, rfl⟩
  | some g =>
    have hs := find_pubkey_get_isSome m.proxy_signers b g h
    cases hq : m.proxy_signers.get g with
    | none => rw [hq] at hs; exact absurd hs (by simp)
    | some q =>
      refine Or.inr ⟨g, q, rfl, hq, ?_⟩
      simp [hq]

theorem get_bls_elim (ps : ProxySigners) (pk : BlsPubkey) (s : GenericProxySigner)
    (h : ps.get (.bls pk) = some s) :
    ∃ p, s = .bls p ∧ alGet ps.bls_signers pk = some p := by
  simp only [ProxySigners.get] at h
  cases hg : alGet ps.bls_signers pk with
  | none => rw [hg] at h; cases h
  | some p =>
    rw [hg] at h
    simp only [Option.map_some', Option.some.injEq] at h
    exact ⟨p, h.symm, rfl⟩

theorem get_ecdsa_elim (ps : ProxySigners) (pk : EcdsaPubkey) (s : GenericProxySigner)
    (h : ps.get (.ecdsa pk) = some s) :
    ∃ p, s = .ecdsa p ∧ alGet ps.ecdsa_signers pk = some p := by
  simp only [ProxySigners.get] at h
  cases hg : alGet ps.ecdsa_signers pk with
  | none => rw [hg] at h; cases h
  | some p =>
    rw [hg] at h
    simp only [Option.map_some', Option.some.injEq] at h
    exact ⟨p, h.symm, rfl⟩

theorem registryWF_empty : RegistryWF ProxySigners.empty := by
  refine ⟨?_, ?_, ?_, ?_⟩ <;> simp [ProxySigners.empty]

theorem registryWF_add (ps : ProxySigners) (p : GenericProxySigner) (h : RegistryWF ps) :
    RegistryWF (ps.add p) := by
  obtain ⟨hb1, hb2, he1, he2⟩ := h
  cases p with
  | bls q =>
    refine ⟨?_, ?_, he1, he2⟩
    · intro q2 hq2
      rcases mem_insert_elim _ _ _ _ hq2 with h2 | h2
      · rw [h2]
      · exact hb1 q2 h2
    · exact nodup_key_insert _ _ _ hb2
  | ecdsa q =>
    refine ⟨hb1, hb2, ?_, ?_⟩
    · intro q2 hq2
      rcases mem_insert_elim _ _ _ _ hq2 with h2 | h2
      · rw [h2]
      · exact he1 q2 h2
    · exact nodup_key_insert _ _ _ he2

theorem regReachable_WF (ps : ProxySigners) (h : RegReachable ps) : RegistryWF ps := by
  induction h with
  | init => exact registryWF_empty
  | step ps2 p h2 ih => exact registryWF_add ps2 p ih

/-- Claim C1: for every module id, every fresh keypair of either scheme and
every consensus pubkey registered via add_consensus_signer (so keyed by the
own pubkey of its signer), create_proxy succeeds and returns a
SignedProxyDelegation that validates against the chain of the manager,
and afterwards has_proxy on the raw bytes of the new proxy pubkey is true
and the module entry of proxy_pubkeys contains the new proxy pubkey. -/
theorem claim_C1 (m : SigningManager) (fresh : FreshKey) (mid : ModuleId) (k : BlsPubkey)
    (s : Signer) (hwf : ConsensusWF m) (hs : alGet m.consensus_signers k = some s) :
    ∃ d m2, m.create_proxy fresh mid k = (.ok d, m2) ∧
      d.validate m.chain = true ∧
      m2.has_proxy d.message.proxy.rawBytes = true ∧
      ∃ l, alGet m2.proxy_pubkeys mid = some l ∧ d.message.proxy ∈ l := by
  have hpk : s.pubkey = k := hwf (k, s) (alGet_mem _ _ _ hs)
  rw [create_proxy_ok m fresh mid k s hs]
  refine ⟨_, _, rfl, ?_, ?_, ?_⟩
  · exact validate_of_signed s k m.chain ⟨k, fresh.pubkey⟩ hpk rfl
  · cases fresh with
    | bls sk =>
      exact (find_pubkey_isSome_iff _ _).mpr
        (Or.inl ⟨⟨sk.material⟩, (mem_key_insert_iff _ _ _ _).mpr (Or.inl rfl), rfl⟩)
    | ecdsa sk =>
      exact (find_pubkey_isSome_iff _ _).mpr
        (Or.inr ⟨⟨sk.material⟩, (mem_key_insert_iff _ _ _ _).mpr (Or.inl rfl), rfl⟩)
  · exact ⟨_, alPush_get_self _ _ _, by simp⟩

/-- Concrete witness for claim C1: a manager holding one consensus signer,
a BLS fresh keypair and a sample module id. -/
theorem claim_C1_witness :
    ConsensusWF mgr0 ∧
    (∃ d m2, mgr0.create_proxy freshBls0 sampleModule consKey0 = (.ok d, m2) ∧
      d.validate mgr0.chain = true ∧
      m2.has_proxy d.message.proxy.rawBytes = true ∧
      ∃ l, alGet m2.proxy_pubkeys sampleModule = some l ∧ d.message.proxy ∈ l) :=
  ⟨by unfold ConsensusWF; decide,
   claim_C1 mgr0 freshBls0 sampleModule consKey0 consSigner0
     (by unfold ConsensusWF; decide) (by decide)⟩

/-- Claim C2: create_proxy on a delegator pubkey that is not registered as
a consensus signer fails with UnknownConsensusSigner carrying the raw
bytes of that pubkey, and the manager state is returned unchanged: no
proxy signer is added to either scheme map and proxy_pubkeys is not
modified. -/
theorem claim_C2 (m : SigningManager) (fresh : FreshKey) (mid : ModuleId) (k : BlsPubkey)
    (hk : alGet m.consensus_signers k = none) :
    m.create_proxy fresh mid k = (.error (.unknownConsensusSigner k.bytes), m) ∧
    (m.create_proxy fresh mid k).2.proxy_signers.bls_signers = m.proxy_signers.bls_signers ∧
    (m.create_proxy fresh mid k).2.proxy_signers.ecdsa_signers = m.proxy_signers.ecdsa_signers ∧
    (m.create_proxy fresh mid k).2.proxy_pubkeys = m.proxy_pubkeys := by
  have h := create_proxy_err m fresh mid k hk
  rw [h]
  exact ⟨rfl, rfl, rfl, rfl⟩

/-- Concrete witness for claim C2: the sample manager with an unregistered
pubkey. -/
theorem claim_C2_witness :
    alGet mgr0.consensus_signers ⟨[9]⟩ = none ∧
    mgr0.create_proxy freshBls0 sampleModule ⟨[9]⟩ =
      (.error (.unknownConsensusSigner [9]), mgr0) :=
  ⟨by decide, (claim_C2 mgr0 freshBls0 sampleModule ⟨[9]⟩ (by decide)).1⟩

/-- Claim C3: cross-scheme isolation: a pubkey returned by find_pubkey
tagged as BLS is a key of the BLS scheme map and one tagged as ECDSA is a
key of the ECDSA scheme map, and get resolves a BLS-tagged pubkey only
from the BLS map and an ECDSA-tagged pubkey only from the ECDSA map, even
when raw bytes of keys in the two maps coincide. -/
theorem claim_C3 (ps : ProxySigners) (b : Bytes) :
    (∀ pk, ps.find_pubkey b = some (.bls pk) → pk ∈ ps.bls_signers.map Prod.fst) ∧
    (∀ pk, ps.find_pubkey b = some (.ecdsa pk) → pk ∈ ps.ecdsa_signers.map Prod.fst) ∧
    (∀ pk s, ps.get (.bls pk) = some s → ∃ p, s = .bls p ∧ alGet ps.bls_signers pk = some p) ∧
    (∀ pk s, ps.get (.ecdsa pk) = some s → ∃ p, s = .ecdsa p ∧ alGet ps.ecdsa_signers pk = some p) :=
  ⟨fun pk h => (find_pubkey_bls_elim ps b pk h).1,
   fun pk h => (find_pubkey_ecdsa_elim ps b pk h).1,
   fun pk s h => get_bls_elim ps pk s h,
   fun pk s h => get_ecdsa_elim ps pk s h⟩

/-- Concrete witness for claim C3: the registry produced by the sample
create_proxy call resolves the BLS-tagged lookup inside the BLS map. -/
theorem claim_C3_witness :
    BlsPubkey.mk [2] ∈ mgr1.proxy_signers.bls_signers.map Prod.fst :=
  (claim_C3 mgr1.proxy_signers [2]).1 ⟨[2]⟩ (by decide)

/-- Claim C4: sign_consensus returns UnknownConsensusSigner carrying the
raw bytes of the key exactly when the key is absent from the
consensus-signer map, and succeeds otherwise; sign_proxy and
get_delegation return UnknownProxySigner carrying the queried raw bytes
exactly when no pubkey of either scheme map matches those bytes, and
succeed otherwise. -/
theorem claim_C4 (m : SigningManager) (k : BlsPubkey) (b r : Bytes) :
    ((m.sign_consensus k r).1 = .error (.unknownConsensusSigner k.bytes) ↔
      alGet m.consensus_signers k = none) ∧
    (alGet m.consensus_signers k ≠ none →
      ∃ sig, (m.sign_consensus k r).1 = .ok sig) ∧
    ((m.sign_proxy b r).1 = .returns (.error (.unknownProxySigner b)) ↔
      ((∀ pk ∈ m.proxy_signers.bls_signers.map Prod.fst, pk.bytes ≠ b) ∧
       (∀ pk ∈ m.proxy_signers.ecdsa_signers.map Prod.fst, pk.bytes ≠ b))) ∧
    (¬ ((∀ pk ∈ m.proxy_signers.bls_signers.map Prod.fst, pk.bytes ≠ b) ∧
        (∀ pk ∈ m.proxy_signers.ecdsa_signers.map Prod.fst, pk.bytes ≠ b)) →
      ∃ sb, (m.sign_proxy b r).1 = .returns (.ok sb)) ∧
    (m.get_delegation b = .returns (.error (.unknownProxySigner b)) ↔
      ((∀ pk ∈ m.proxy_signers.bls_signers.map Prod.fst, pk.bytes ≠ b) ∧
       (∀ pk ∈ m.proxy_signers.ecdsa_signers.map Prod.fst, pk.bytes ≠ b))) ∧
    (¬ ((∀ pk ∈ m.proxy_signers.bls_signers.map Prod.fst, pk.bytes ≠ b) ∧
        (∀ pk ∈ m.proxy_signers.ecdsa_signers.map Prod.fst, pk.bytes ≠ b)) →
      ∃ d, m.get_delegation b = .returns (.ok d)) := by
  refine ⟨?_, ?_, ?_, ?_, ?_, ?_⟩
  · unfold SigningManager.sign_consensus
    cases h : alGet m.consensus_signers k with
    | none => simp
    | some s => simp
  · intro hne
    unfold SigningManager.sign_consensus
    cases h : alGet m.consensus_signers k with
    | none => exact absurd h hne
    | some s => exact ⟨s.sign m.chain r, rfl⟩
  · rcases find_proxy_cases m b with ⟨hfp, hnone⟩ | ⟨g, q, hg, hq, hfp⟩
    · rw [find_pubkey_none_iff] at hnone
      exact ⟨fun _ => hnone, fun _ => by simp [SigningManager.sign_proxy, hfp]⟩
    · simp only [SigningManager.sign_proxy, hfp]
      constructor
      · intro h
        simp at h
      · intro hno
        cases g with
        | bls pk =>
          obtain ⟨hmem, hbytes⟩ := find_pubkey_bls_elim _ _ _ hg
          exact absurd hbytes (hno.1 pk hmem)
        | ecdsa pk =>
          obtain ⟨hmem, hbytes, -⟩ := find_pubkey_ecdsa_elim _ _ _ hg
          exact absurd hbytes (hno.2 pk hmem)
  · intro hno
    rcases find_proxy_cases m b with ⟨hfp, hnone⟩ | ⟨g, q, hg, hq, hfp⟩
    · rw [find_pubkey_none_iff] at hnone
      exact absurd hnone hno
    · exact ⟨q.sign m.chain r, by simp [SigningManager.sign_proxy, hfp]⟩
  · rcases find_proxy_cases m b with ⟨hfp, hnone⟩ | ⟨g, q, hg, hq, hfp⟩
    · rw [find_pubkey_none_iff] at hnone
      exact ⟨fun _ => hnone, fun _ => by simp [SigningManager.get_delegation, hfp]⟩
    · simp only [SigningManager.get_delegation, hfp]
      constructor
      · intro h
        simp at h
      · intro hno
        cases g with
        | bls pk =>
          obtain ⟨hmem, hbytes⟩ := find_pubkey_bls_elim _ _ _ hg
          exact absurd hbytes (hno.1 pk hmem)
        | ecdsa pk =>
          obtain ⟨hmem, hbytes, -⟩ := find_pubkey_ecdsa_elim _ _ _ hg
          exact absurd hbytes (hno.2 pk hmem)
  · intro hno
    rcases find_proxy_cases m b with ⟨hfp, hnone⟩ | ⟨g, q, hg, hq, hfp⟩
    · rw [find_pubkey_none_iff] at hnone
      exact absurd hnone hno
    · exact ⟨q.delegation, by simp [SigningManager.get_delegation, hfp]⟩

/-- Concrete witness for claim C4: the sample post-creation manager signs
with its consensus key, signs with the new proxy key and returns its
delegation. -/
theorem claim_C4_witness :
    (∃ sig, (mgr1.sign_consensus consKey0 [5]).1 = .ok sig) ∧
    (∃ sb, (mgr1.sign_proxy [2] [5]).1 = .returns (.ok sb)) ∧
    (∃ d, mgr1.get_delegation [2] = .returns (.ok d)) :=
  ⟨(claim_C4 mgr1 consKey0 [2] [5]).2.1 (by decide),
   (claim_C4 mgr1 consKey0 [2] [5]).2.2.2.1 (by decide),
   (claim_C4 mgr1 consKey0 [2] [5]).2.2.2.2.2 (by decide)⟩

/-- Claim C5: find_pubkey returns none exactly when no key of either
scheme map has the queried raw bytes; any returned pubkey carries those
raw bytes; a matching BLS key is always returned (BLS map searched first),
and an ECDSA key is returned exactly when the BLS map has no match. -/
theorem claim_C5 (ps : ProxySigners) (b : Bytes) :
    (ps.find_pubkey b = none ↔
      (∀ pk ∈ ps.bls_signers.map Prod.fst, pk.bytes ≠ b) ∧
      (∀ pk ∈ ps.ecdsa_signers.map Prod.fst, pk.bytes ≠ b)) ∧
    (∀ g, ps.find_pubkey b = some g → g.rawBytes = b) ∧
    (BlsPubkey.mk b ∈ ps.bls_signers.map Prod.fst →
      ps.find_pubkey b = some (.bls ⟨b⟩)) ∧
    ((∀ pk ∈ ps.bls_signers.map Prod.fst, pk.bytes ≠ b) →
      EcdsaPubkey.mk b ∈ ps.ecdsa_signers.map Prod.fst →
      ps.find_pubkey b = some (.ecdsa ⟨b⟩)) :=
  ⟨find_pubkey_none_iff ps b,
   fun g h => find_pubkey_rawBytes ps b g h,
   fun h => find_pubkey_of_bls_mem ps b h,
   fun h1 h2 => find_pubkey_of_ecdsa_mem ps b h1 h2⟩

/-- Concrete witness for claim C5: the registry of the sample
post-creation manager finds its BLS proxy key by raw bytes. -/
theorem claim_C5_witness :
    mgr1.proxy_signers.find_pubkey [2] = some (.bls ⟨[2]⟩) :=
  (claim_C5 mgr1.proxy_signers [2]).2.2.1 (by decide)

/-- Claim C6: sign_consensus and sign_proxy never mutate the manager: the
chain, the consensus-signer map, both proxy scheme maps and the module
index are unchanged after either call, whether it succeeds or errors. -/
theorem claim_C6 (m : SigningManager) (k : BlsPubkey) (b r r2 : Bytes) :
    ((m.sign_consensus k r).2.chain = m.chain ∧
     (m.sign_consensus k r).2.consensus_signers = m.consensus_signers ∧
     (m.sign_consensus k r).2.proxy_signers.bls_signers = m.proxy_signers.bls_signers ∧
     (m.sign_consensus k r).2.proxy_signers.ecdsa_signers = m.proxy_signers.ecdsa_signers ∧
     (m.sign_consensus k r).2.proxy_pubkeys = m.proxy_pubkeys) ∧
    ((m.sign_proxy b r2).2.chain = m.chain ∧
     (m.sign_proxy b r2).2.consensus_signers = m.consensus_signers ∧
     (m.sign_proxy b r2).2.proxy_signers.bls_signers = m.proxy_signers.bls_signers ∧
     (m.sign_proxy b r2).2.proxy_signers.ecdsa_signers = m.proxy_signers.ecdsa_signers ∧
     (m.sign_proxy b r2).2.proxy_pubkeys = m.proxy_pubkeys) := by
  rw [sign_consensus_state, sign_proxy_state]
  exact ⟨⟨rfl, rfl, rfl, rfl, rfl⟩, ⟨rfl, rfl, rfl, rfl, rfl⟩⟩

/-- Claim C10: the expect in find_proxy is unreachable: whenever
find_pubkey returns a pubkey, get resolves it, so find_proxy, sign_proxy
and get_delegation never reach the panic branch for any raw-byte input. -/
theorem claim_C10 (m : SigningManager) (b r : Bytes) :
    (∃ x, m.find_proxy b = .returns x) ∧
    (∃ y, (m.sign_proxy b r).1 = .returns y) ∧
    (∃ z, m.get_delegation b = .returns z) ∧
    (∀ g, m.proxy_signers.find_pubkey b = some g → (m.proxy_signers.get g).isSome) := by
  rcases find_proxy_cases m b with ⟨hfp, -⟩ | ⟨g, q, hg, hq, hfp⟩
  · exact ⟨⟨none, hfp⟩,
      ⟨.error (.unknownProxySigner b), by simp [SigningManager.sign_proxy, hfp]⟩,
      ⟨.error (.unknownProxySigner b), by simp [SigningManager.get_delegation, hfp]⟩,
      fun g2 h => find_pubkey_get_isSome m.proxy_signers b g2 h⟩
  · exact ⟨⟨some q, hfp⟩,
      ⟨.ok (q.sign m.chain r), by simp [SigningManager.sign_proxy, hfp]⟩,
      ⟨.ok q.delegation, by simp [SigningManager.get_delegation, hfp]⟩,
      fun g2 h => find_pubkey_get_isSome m.proxy_signers b g2 h⟩

/-- Concrete witness for claim C10: the registry of the sample
post-creation manager resolves the pubkey its lookup finds. -/
theorem claim_C10_witness :
    (mgr1.proxy_signers.get (.bls ⟨[2]⟩)).isSome :=
  (claim_C10 mgr1 [2] [5]).2.2.2 (.bls ⟨[2]⟩) (by decide)

/-- Claim C7: the module-index invariant (every pubkey in proxy_pubkeys
resolves in the proxy-signer registry) holds of a fresh manager and is
preserved by add_consensus_signer, add_proxy_signer, create_proxy and the
signing operations, and each of these operations extends every module list
of proxy_pubkeys only by appending at the end, never removing or
reordering previously appended entries. -/
theorem claim_C7 (c : Chain) (m : SigningManager) (s : Signer) (p : GenericProxySigner)
    (fresh : FreshKey) (mid : ModuleId) (k : BlsPubkey) (b r : Bytes) :
    PkIndexInv (SigningManager.new c) ∧
    (PkIndexInv m → PkIndexInv (m.add_consensus_signer s) ∧
      IndexExtends m (m.add_consensus_signer s)) ∧
    (PkIndexInv m → PkIndexInv (m.add_proxy_signer p) ∧
      IndexExtends m (m.add_proxy_signer p)) ∧
    (PkIndexInv m → PkIndexInv (m.create_proxy fresh mid k).2 ∧
      IndexExtends m (m.create_proxy fresh mid k).2) ∧
    (PkIndexInv m → PkIndexInv (m.sign_consensus k r).2 ∧
      IndexExtends m (m.sign_consensus k r).2) ∧
    (PkIndexInv m → PkIndexInv (m.sign_proxy b r).2 ∧
      IndexExtends m (m.sign_proxy b r).2) := by
  refine ⟨?_, ?_, ?_, ?_, ?_, ?_⟩
  · intro mid2 l h pk hpk
    simp [SigningManager.new, alGet] at h
  · intro hinv
    exact ⟨fun mid2 l h pk hpk => hinv mid2 l h pk hpk, indexExtends_refl m⟩
  · intro hinv
    refine ⟨?_, indexExtends_refl m⟩
    intro mid2 l h pk hpk
    exact get_add_isSome _ p pk (hinv mid2 l h pk hpk)
  · intro hinv
    cases hs : alGet m.consensus_signers k with
    | none =>
      rw [create_proxy_err m fresh mid k hs]
      exact ⟨hinv, indexExtends_refl m⟩
    | some s2 =>
      rw [create_proxy_ok m fresh mid k s2 hs]
      refine ⟨?_, ?_⟩
      · intro mid2 l h pk hpk
        dsimp only at h ⊢
        by_cases hm : mid2 = mid
        · subst hm
          rw [alPush_get_self] at h
          have hl : l = (alGet m.proxy_pubkeys mid2).getD [] ++ [fresh.pubkey] := by
            simpa using h.symm
          subst hl
          rcases List.mem_append.mp hpk with hpk2 | hpk2
          · cases hget : alGet m.proxy_pubkeys mid2 with
            | none => rw [hget] at hpk2; simp at hpk2
            | some l0 =>
              rw [hget] at hpk2
              exact get_add_isSome _ _ pk (hinv mid2 l0 hget pk hpk2)
          · have hpk3 : pk = fresh.pubkey := by simpa using hpk2
            subst hpk3
            have hg := get_add_self m.proxy_signers (fresh.mkProxySigner
              ⟨s2.sign m.chain (ProxyDelegation.mk k fresh.pubkey).treeHashRoot,
               ⟨k, fresh.pubkey⟩⟩)
            rw [mkProxySigner_pubkey] at hg
            rw [hg]
            rfl
        · rw [alPush_get_ne _ _ _ _ hm] at h
          exact get_add_isSome _ _ pk (hinv mid2 l h pk hpk)
      · intro mid2
        by_cases hm : mid2 = mid
        · subst hm
          exact ⟨[fresh.pubkey], by simp [pkList, alPush_get_self]⟩
        · exact ⟨[], by simp [pkList, alPush_get_ne _ _ _ _ hm]⟩
  · intro hinv
    rw [sign_consensus_state]
    exact ⟨hinv, indexExtends_refl m⟩
  · intro hinv
    rw [sign_proxy_state]
    exact ⟨hinv, indexExtends_refl m⟩

/-- Concrete witness for claim C7: the sample manager with an empty index
keeps the invariant through add_proxy_signer. -/
theorem claim_C7_witness :
    PkIndexInv mgr0 ∧
    (PkIndexInv (mgr0.add_proxy_signer proxySigner0) ∧
     IndexExtends mgr0 (mgr0.add_proxy_signer proxySigner0)) :=
  ⟨fun mid2 l h => by
      simp [mgr0, SigningManager.add_consensus_signer, SigningManager.new, alGet] at h,
   (claim_C7 chain0 mgr0 consSigner0 proxySigner0 freshBls0 sampleModule consKey0
      [2] [5]).2.2.1 (fun mid2 l h => by
      simp [mgr0, SigningManager.add_consensus_signer, SigningManager.new, alGet] at h)⟩

/-- Claim C8: ProxySigners.add stores a proxy signer keyed by its own
public key in the map of its scheme, silently replacing any previous entry
under that key, and in every reachable registry state every stored signer
is keyed by its own pubkey and each public key occurs at most once per
scheme map. -/
theorem claim_C8 (ps : ProxySigners) (p : GenericProxySigner) :
    (ps.add p).get p.pubkey = some p ∧
    RegistryWF ProxySigners.empty ∧
    (RegistryWF ps → RegistryWF (ps.add p)) ∧
    (RegReachable ps → RegistryWF ps) :=
  ⟨get_add_self ps p, registryWF_empty, registryWF_add ps p, regReachable_WF ps⟩

/-- Concrete witness for claim C8: one add to the empty registry. -/
theorem claim_C8_witness :
    (ProxySigners.empty.add proxySigner0).get proxySigner0.pubkey = some proxySigner0 ∧
    RegistryWF (ProxySigners.empty.add proxySigner0) :=
  ⟨(claim_C8 ProxySigners.empty proxySigner0).1,
   (claim_C8 (ProxySigners.empty.add proxySigner0) proxySigner0).2.2.2
     (RegReachable.step _ _ RegReachable.init)⟩

/-- Claim C9: changing any single byte of the signature of a delegation
produced by a successful create_proxy call (on a well-formed consensus
map) to a different value makes validate fail against the chain of the
manager; no single-byte corruption of the signature still validates. -/
theorem claim_C9 (m : SigningManager) (fresh : FreshKey) (mid : ModuleId) (k : BlsPubkey)
    (d : SignedProxyDelegation) (m2 : SigningManager) (i : Nat) (v : Nat)
    (hwf : ConsensusWF m) (hok : m.create_proxy fresh mid k = (.ok d, m2))
    (hi : i < d.signature.length) (hv : v ≠ d.signature.get ⟨i, hi⟩) :
    SignedProxyDelegation.validate ⟨d.signature.set i v, d.message⟩ m.chain = false := by
  cases hs : alGet m.consensus_signers k with
  | none =>
    rw [create_proxy_err m fresh mid k hs] at hok
    simp at hok
  | some s =>
    rw [create_proxy_ok m fresh mid k s hs] at hok
    simp only [Prod.mk.injEq, Except.ok.injEq] at hok
    have hd := hok.1
    have hpk : s.pubkey = k := hwf (k, s) (alGet_mem _ _ _ hs)
    have hval : d.validate m.chain = true := by
      rw [← hd]
      exact validate_of_signed s k m.chain ⟨k, fresh.pubkey⟩ hpk rfl
    have hE : d.signature =
        d.message.delegator.bytes ++ computeSigningRoot d.message.treeHashRoot
          m.chain.builderDomain := by
      simpa [SignedProxyDelegation.validate, blsVerify] using hval
    have hne := list_set_ne d.signature i v hi hv
    simp only [SignedProxyDelegation.validate, blsVerify]
    rw [← hE]
    exact decide_eq_false hne

/-- Concrete witness for claim C9: flipping the first signature byte of
the sample delegation to 7 breaks validation. -/
theorem claim_C9_witness :
    ConsensusWF mgr0 ∧
    mgr0.create_proxy freshBls0 sampleModule consKey0 = (.ok delegation1, mgr1) ∧
    0 < delegation1.signature.length ∧
    SignedProxyDelegation.validate ⟨delegation1.signature.set 0 7, delegation1.message⟩
      mgr0.chain = false :=
  ⟨by unfold ConsensusWF; decide, by decide, by decide,
   claim_C9 mgr0 freshBls0 sampleModule consKey0 delegation1 mgr1 0 7
     (by unfold ConsensusWF; decide) (by decide) (by decide) (by decide)⟩
